import Mathlib

/-!
Verification of the `encodeurl` package: a single function `encodeUrl` that
percent-encodes the non-URL code points of an already partially encoded URL,
backed by a fixed-capacity FIFO result cache, a fast path for all-safe ASCII
inputs, and a surrogate-repair pass.

JavaScript strings are sequences of 16-bit code units; we embed them as
`List Nat`. The two source regexes (`UNMATCHED_SURROGATE_PAIR_REGEXP` and
`ENCODE_CHARS_REGEXP`) are embedded as executable scanners that implement the
ECMAScript global-replace semantics of those exact patterns, and the builtin
`encodeURI` is embedded from the ECMA-262 Encode algorithm. A thrown
`URIError` is modelled as `none`.
-/

namespace EncodeUrl

/-- High surrogate test: code unit in the range D800 to DBFF. -/
def isHighSurrogate (c : Nat) : Bool := 0xD800 ≤ c && c ≤ 0xDBFF

/-- Low surrogate test: code unit in the range DC00 to DFFF. -/
def isLowSurrogate (c : Nat) : Bool := 0xDC00 ≤ c && c ≤ 0xDFFF

/-- Hex digit test, mirroring the regex class 0-9 A-F a-f. -/
def isHexDigit (c : Nat) : Bool :=
  (0x30 ≤ c && c ≤ 0x39) || (0x41 ≤ c && c ≤ 0x46) || (0x61 ≤ c && c ≤ 0x66)

/-- Complement of the first character class of ENCODE_CHARS_REGEXP: the code
units that the class does not match, namely x21, x23-x3B, x3D, x3F-x5F,
x61-x7A, x7C, x7E. -/
def encodeSafeChar (c : Nat) : Bool :=
  c = 0x21 || (0x23 ≤ c && c ≤ 0x3B) || c = 0x3D ||
  (0x3F ≤ c && c ≤ 0x5F) || (0x61 ≤ c && c ≤ 0x7A) || c = 0x7C || c = 0x7E

/-- The ranges used to build VALID_URL_CHARS in the source. -/
def validRanges : List (Nat × Nat) :=
  [(0x21, 0x21), (0x23, 0x3B), (0x3D, 0x3D), (0x3F, 0x5F),
   (0x61, 0x7A), (0x7C, 0x7C), (0x7E, 0x7E)]

/-- The set of valid URL characters, built by iterating the ranges exactly as
the source initialiser does; membership in this list models `Set.has`. -/
def VALID_URL_CHARS : List Nat :=
  validRanges.foldl (fun s p => s ++ List.range' p.1 (p.2 + 1 - p.1)) []

/-- The test of ASCII_ONLY_REGEXP: every code unit in the range x00 to x7F. -/
def asciiOnly (l : List Nat) : Bool := l.all (fun c => c ≤ 0x7F)

/-- The fast-path scan over VALID_URL_CHARS (the loop that sets
`needsEncoding`): true when no code unit needs encoding. -/
def allValidUrlChars (l : List Nat) : Bool :=
  l.all (fun c => VALID_URL_CHARS.contains c)

/-- The complete fast-path condition of `encodeUrl`: ASCII only, no percent
character, and every code unit in VALID_URL_CHARS. -/
def fastPathOk (l : List Nat) : Bool :=
  asciiOnly l && !(l.contains 0x25) && allValidUrlChars l

/-- One pass of the global replace by UNMATCHED_SURROGATE_PAIR_REGEXP with
replacement string dollar1 FFFD dollar2. The Bool argument records whether the
current position is the start of the string, where the caret alternative can
apply. Alternatives are tried in the order of the regex: first
`(caret|[^D800-DBFF])[DC00-DFFF]`, then `[D800-DBFF]([^DC00-DFFF]|eos)`;
scanning resumes after each match, and an unmatched code unit is copied. -/
def repairGo : Bool → List Nat → List Nat
  | _, [] => []
  | atStart, [a] =>
    if atStart && isLowSurrogate a then [0xFFFD]
    else if isHighSurrogate a then [0xFFFD]
    else [a]
  | atStart, a :: b :: rest =>
    if atStart && isLowSurrogate a then
      0xFFFD :: repairGo false (b :: rest)
    else if !isHighSurrogate a && isLowSurrogate b then
      a :: 0xFFFD :: repairGo false rest
    else if isHighSurrogate a && !isLowSurrogate b then
      0xFFFD :: b :: repairGo false rest
    else
      a :: repairGo false (b :: rest)

/-- The surrogate-repair step: the source's
`.replace(UNMATCHED_SURROGATE_PAIR_REGEXP, UNMATCHED_SURROGATE_PAIR_REPLACE)`. -/
def repairSurrogates (l : List Nat) : List Nat := repairGo true l

/-- The unescaped set of the ECMA-262 `encodeURI` builtin: uriAlpha, decimal
digits, uriMark, uriReserved and the hash sign. -/
def uriUnescaped (c : Nat) : Bool :=
  (0x30 ≤ c && c ≤ 0x39) || (0x41 ≤ c && c ≤ 0x5A) || (0x61 ≤ c && c ≤ 0x7A) ||
  c = 0x21 || c = 0x23 || c = 0x24 || c = 0x26 || c = 0x27 || c = 0x28 ||
  c = 0x29 || c = 0x2A || c = 0x2B || c = 0x2C || c = 0x2D || c = 0x2E ||
  c = 0x2F || c = 0x3A || c = 0x3B || c = 0x3D || c = 0x3F || c = 0x40 ||
  c = 0x5F || c = 0x7E

/-- Uppercase hex digit for a value below 16, as a code unit. -/
def hexUpper (n : Nat) : Nat := if n < 10 then 0x30 + n else 0x37 + n

/-- Percent-encoding of one byte: percent sign followed by two uppercase hex
digits. -/
def pctByte (b : Nat) : List Nat := [0x25, hexUpper (b / 16), hexUpper (b % 16)]

/-- UTF-8 percent-encoding of a code point, each byte as percent XX. -/
def utf8pct (v : Nat) : List Nat :=
  if v < 0x80 then pctByte v
  else if v < 0x800 then
    pctByte (0xC0 + v / 0x40) ++ pctByte (0x80 + v % 0x40)
  else if v < 0x10000 then
    pctByte (0xE0 + v / 0x1000) ++ pctByte (0x80 + v / 0x40 % 0x40) ++
      pctByte (0x80 + v % 0x40)
  else
    pctByte (0xF0 + v / 0x40000) ++ pctByte (0x80 + v / 0x1000 % 0x40) ++
      pctByte (0x80 + v / 0x40 % 0x40) ++ pctByte (0x80 + v % 0x40)

/-- The ECMA-262 Encode algorithm underlying the `encodeURI` builtin, on code
units: unescaped units pass through, surrogate pairs combine to one code
point, a lone surrogate raises URIError (modelled as `none`), and every other
code point is emitted as its UTF-8 bytes, each percent-encoded. -/
def encodeURIstr : List Nat → Option (List Nat)
  | [] => some []
  | c :: rest =>
    if uriUnescaped c then (encodeURIstr rest).map (fun t => c :: t)
    else if isLowSurrogate c then none
    else if isHighSurrogate c then
      match rest with
      | [] => none
      | c2 :: rest2 =>
        if isLowSurrogate c2 then
          (encodeURIstr rest2).map
            (fun t => utf8pct (0x10000 + (c - 0xD800) * 0x400 + (c2 - 0xDC00)) ++ t)
        else none
    else (encodeURIstr rest).map (fun t => utf8pct c ++ t)

/-- A segment of the scan by ENCODE_CHARS_REGEXP: either one code unit that no
match covers, or the code units of one repetition of the group. -/
inductive Seg
  | pass (c : Nat)
  | run (cs : List Nat)
deriving DecidableEq

/-- Scanner for ENCODE_CHARS_REGEXP, one repetition of the group at a time.
At each position the alternatives are tried in regex order: the negated
character class (one unit), then percent followed by a non-hex unit, or by a
hex unit and a non-hex unit, or by end of string (matching just the percent).
Where no alternative matches, the unit is passed through and scanning moves
one unit right. -/
def tokenize : List Nat → List Seg
  | [] => []
  | [c] =>
    if c = 0x25 then [Seg.run [0x25]]
    else if encodeSafeChar c then [Seg.pass c]
    else [Seg.run [c]]
  | [c, d] =>
    if c = 0x25 then
      if !isHexDigit d then [Seg.run [0x25, d]]
      else Seg.pass 0x25 :: tokenize [d]
    else if encodeSafeChar c then Seg.pass c :: tokenize [d]
    else Seg.run [c] :: tokenize [d]
  | c :: d :: e :: rest3 =>
    if c = 0x25 then
      if !isHexDigit d then Seg.run [0x25, d] :: tokenize (e :: rest3)
      else if !isHexDigit e then Seg.run [0x25, d, e] :: tokenize rest3
      else Seg.pass 0x25 :: tokenize (d :: e :: rest3)
    else if encodeSafeChar c then Seg.pass c :: tokenize (d :: e :: rest3)
    else Seg.run [c] :: tokenize (d :: e :: rest3)

/-- Adjacent repetitions of the group form one match of the regex (the plus
quantifier is greedy), so adjacent run segments are merged. -/
def coalesce : List Seg → List Seg
  | [] => []
  | Seg.pass c :: rest => Seg.pass c :: coalesce rest
  | Seg.run a :: rest =>
    match coalesce rest with
    | Seg.run b :: t => Seg.run (a ++ b) :: t
    | t => Seg.run a :: t

/-- Render one segment: a passed unit is copied, a matched run is handed to
the `encodeURI` replacer. -/
def renderSeg : Seg → Option (List Nat)
  | Seg.pass c => some [c]
  | Seg.run cs => encodeURIstr cs

/-- Render a segment list, propagating a URIError from any run. -/
def renderSegs : List Seg → Option (List Nat)
  | [] => some []
  | s :: rest =>
    match renderSeg s, renderSegs rest with
    | some a, some b => some (a ++ b)
    | _, _ => none

/-- The source's `.replace(ENCODE_CHARS_REGEXP, encodeURI)`. -/
def encodeChars (l : List Nat) : Option (List Nat) :=
  renderSegs (coalesce (tokenize l))

/-- The cache-free computation performed by `encodeUrl`: the fast path when it
applies, otherwise surrogate repair followed by selective encoding. -/
def encodeUrlPure (l : List Nat) : Option (List Nat) :=
  if fastPathOk l then some l else encodeChars (repairSurrogates l)

/-- The state of URL_CACHE. The source keeps an insertion-ordered `keys` array
next to a null-prototype object; since `set` is the only mutator and keeps the
two aligned (a key is pushed exactly when it is absent, and the evicted key is
removed from both), the pair is embedded as one association list in insertion
order, oldest first. -/
structure UrlCache where
  entries : List (List Nat × List Nat)
deriving DecidableEq

/-- The MAX_SIZE constant of URL_CACHE. -/
def MAX_SIZE : Nat := 100

/-- URL_CACHE.get: plain lookup, no state change. -/
def urlCacheGet (st : UrlCache) (k : List Nat) : Option (List Nat) :=
  (st.entries.find? (fun e => e.1 == k)).map (fun e => e.2)

/-- URL_CACHE.set: an existing key has its value overwritten in place; a new
key first evicts the oldest entry when the cache is full, then is appended. -/
def urlCacheSet (st : UrlCache) (k v : List Nat) : UrlCache :=
  if (st.entries.find? (fun e => e.1 == k)).isSome then
    ⟨st.entries.map (fun e => if e.1 == k then (e.1, v) else e)⟩
  else if MAX_SIZE ≤ st.entries.length then
    ⟨st.entries.tail ++ [(k, v)]⟩
  else
    ⟨st.entries ++ [(k, v)]⟩

/-- The cache at module load: empty. -/
def initialCache : UrlCache := ⟨[]⟩

/-- The encodeUrl entry point over an explicit cache state: cache lookup,
then the fast path (which caches unconditionally), then the full path (which
caches only inputs shorter than 200 code units). A URIError thrown by the
encoding pass propagates before any cache write. -/
def encodeUrl (url : List Nat) (st : UrlCache) : Option (List Nat) × UrlCache :=
  match urlCacheGet st url with
  | some v => (some v, st)
  | none =>
    if fastPathOk url then
      (some url, urlCacheSet st url url)
    else
      match encodeChars (repairSurrogates url) with
      | none => (none, st)
      | some r => (some r, if url.length < 200 then urlCacheSet st url r else st)

/-- The cache states reachable from module load by any sequence of calls. -/
inductive Reachable : UrlCache → Prop
  | init : Reachable initialCache
  | step (url : List Nat) (st : UrlCache) :
      Reachable st → Reachable (encodeUrl url st).2

/-- Shape of fully encoded output: every code unit is safe, and every percent
begins a full hex triplet, except that the string may end in a percent
followed by a single hex digit (which the encode regex also leaves alone). -/
inductive PctOk : List Nat → Prop
  | nil : PctOk []
  | safe (c : Nat) (rest : List Nat) : c ≠ 0x25 → encodeSafeChar c = true →
      PctOk rest → PctOk (c :: rest)
  | trip (d e : Nat) (rest : List Nat) : isHexDigit d = true →
      isHexDigit e = true → PctOk rest → PctOk (0x25 :: d :: e :: rest)
  | tail2 (d : Nat) : isHexDigit d = true → PctOk [0x25, d]

/-- As PctOk but without the trailing percent-hex form: every percent begins
a complete triplet. Outputs of the encodeURI replacer have this shape. -/
inductive PctStrict : List Nat → Prop
  | nil : PctStrict []
  | safe (c : Nat) (rest : List Nat) : c ≠ 0x25 → encodeSafeChar c = true →
      PctStrict rest → PctStrict (c :: rest)
  | trip (d e : Nat) (rest : List Nat) : isHexDigit d = true →
      isHexDigit e = true → PctStrict rest → PctStrict (0x25 :: d :: e :: rest)

/-- Invariant of the segment lists produced by the scanner: a pass of a
percent is always followed by two passed hex digits, or by one passed hex
digit at the very end; all other passes are safe non-percent units; runs hold
only code units taken from the input. -/
inductive SegsOk : List Seg → Prop
  | nil : SegsOk []
  | run (cs : List Nat) (rest : List Seg) : (∀ c ∈ cs, c < 0x10000) →
      SegsOk rest → SegsOk (Seg.run cs :: rest)
  | passSafe (c : Nat) (rest : List Seg) : c ≠ 0x25 → encodeSafeChar c = true →
      SegsOk rest → SegsOk (Seg.pass c :: rest)
  | passTrip (d e : Nat) (rest : List Seg) : isHexDigit d = true →
      isHexDigit e = true → SegsOk rest →
      SegsOk (Seg.pass 0x25 :: Seg.pass d :: Seg.pass e :: rest)
  | passTail (d : Nat) : isHexDigit d = true →
      SegsOk [Seg.pass 0x25, Seg.pass d]

/-- Surrogate well-formedness of a code unit sequence: every high surrogate
is immediately followed by a low surrogate, and no low surrogate appears
except in that position. -/
def surrogatesWellFormed : List Nat → Bool
  | [] => true
  | [c] => !isHighSurrogate c && !isLowSurrogate c
  | c :: c2 :: rest =>
    if isHighSurrogate c then
      isLowSurrogate c2 && surrogatesWellFormed rest
    else
      !isLowSurrogate c && surrogatesWellFormed (c2 :: rest)

/-- Every percent in the sequence begins a complete valid escape triplet. -/
def escapesAllValid : List Nat → Bool
  | [] => true
  | [c] => c ≠ 0x25
  | [c, d] => if c = 0x25 then false else escapesAllValid [d]
  | c :: d :: e :: rest =>
    if c = 0x25 then
      isHexDigit d && isHexDigit e && escapesAllValid rest
    else escapesAllValid (d :: e :: rest)

/-- Modelled from the claim text of C6 (the selective-encoding contract):
walk the repaired input; a character in the safe set passes unchanged, a
correctly paired surrogate pair is one character and becomes the uppercase
percent-encoding of the UTF-8 bytes of its combined code point, and any other
unsafe character becomes the uppercase percent-encoding of its own UTF-8
bytes, all in the original order. This is the claim-side definition compared
against the embedded encoder. -/
def specSelectiveEncode : List Nat → List Nat
  | [] => []
  | [c] => if VALID_URL_CHARS.contains c then [c] else utf8pct c
  | c :: c2 :: rest =>
    if VALID_URL_CHARS.contains c then c :: specSelectiveEncode (c2 :: rest)
    else if isHighSurrogate c && isLowSurrogate c2 then
      utf8pct (0x10000 + (c - 0xD800) * 0x400 + (c2 - 0xDC00)) ++
        specSelectiveEncode rest
    else utf8pct c ++ specSelectiveEncode (c2 :: rest)

/-- The classifier agrees with the character class of ENCODE_CHARS_REGEXP. -/
theorem contains_VALID_URL_CHARS (c : Nat) :
    VALID_URL_CHARS.contains c = encodeSafeChar c := by
  rw [Bool.eq_iff_iff, List.elem_iff]
  simp only [VALID_URL_CHARS, validRanges, List.foldl_cons, List.foldl_nil,
    List.nil_append, List.mem_append, List.mem_range'_1, encodeSafeChar,
    Bool.or_eq_true, Bool.and_eq_true, decide_eq_true_eq]
  norm_num
  omega

/-- Membership after a set: either an old entry or the new pair. -/
theorem mem_urlCacheSet (st : UrlCache) (k v : List Nat)
    (x : List Nat × List Nat) (hx : x ∈ (urlCacheSet st k v).entries) :
    x ∈ st.entries ∨ x = (k, v) := by
  unfold urlCacheSet at hx
  split at hx
  · obtain ⟨e, he, hex⟩ := List.mem_map.mp hx
    by_cases h : (e.1 == k) = true
    · right
      rw [if_pos h] at hex
      have : e.1 = k := by simpa using h
      rw [← hex, this]
    · left
      rw [if_neg h] at hex
      rwa [← hex]
  · split at hx
    · rcases List.mem_append.mp hx with h | h
      · exact Or.inl (List.tail_sublist st.entries |>.mem h)
      · exact Or.inr (by simpa using h)
    · rcases List.mem_append.mp hx with h | h
      · exact Or.inl h
      · exact Or.inr (by simpa using h)

/-- A set never pushes the cache above MAX_SIZE. -/
theorem length_urlCacheSet (st : UrlCache) (k v : List Nat)
    (h : st.entries.length ≤ MAX_SIZE) :
    (urlCacheSet st k v).entries.length ≤ MAX_SIZE := by
  unfold urlCacheSet
  simp only [MAX_SIZE] at h ⊢
  split
  · simpa using h
  · split
    · next hfull =>
      simp only [List.length_append, List.length_tail, List.length_cons,
        List.length_nil]
      omega
    · next hfull =>
      simp only [List.length_append, List.length_cons, List.length_nil]
      omega

/-- Setting a fresh key in a full cache drops the oldest entry and appends. -/
theorem urlCacheSet_evicts_oldest (st : UrlCache) (k v : List Nat)
    (hfull : MAX_SIZE ≤ st.entries.length) (hnew : urlCacheGet st k = none) :
    (urlCacheSet st k v).entries = st.entries.tail ++ [(k, v)] := by
  have hf : st.entries.find? (fun e => e.1 == k) = none := by
    simpa [urlCacheGet] using hnew
  unfold urlCacheSet
  rw [hf]
  simp [hfull]

/-- A hit returns the cached value and leaves the state untouched. -/
theorem encodeUrl_hit (st : UrlCache) (url v : List Nat)
    (h : urlCacheGet st url = some v) : encodeUrl url st = (some v, st) := by
  unfold encodeUrl
  rw [h]

/-- A successful get exposes a stored entry with that exact key. -/
theorem urlCacheGet_mem (st : UrlCache) (k v : List Nat)
    (h : urlCacheGet st k = some v) : (k, v) ∈ st.entries := by
  unfold urlCacheGet at h
  cases hf : st.entries.find? (fun e => e.1 == k) with
  | none => rw [hf] at h; simp at h
  | some e =>
    rw [hf] at h
    have hk : e.1 = k := by simpa using List.find?_some hf
    have hv : e.2 = v := by simpa using h
    have := List.mem_of_find?_eq_some hf
    rwa [show (k, v) = e from by rw [← hk, ← hv]]

/-- The invariant maintained by every call: the cache is within capacity and
each stored entry maps its key to the cache-free result, with only short keys
or fast-path identity keys stored. -/
def CacheInv (st : UrlCache) : Prop :=
  st.entries.length ≤ MAX_SIZE ∧
  ∀ kv ∈ st.entries, encodeUrlPure kv.1 = some kv.2 ∧
    (kv.1.length < 200 ∨ fastPathOk kv.1 = true)

/-- A set with a sound value preserves the invariant. -/
theorem cacheInv_set (st : UrlCache) (k v : List Nat) (hinv : CacheInv st)
    (hv : encodeUrlPure k = some v) (hk : k.length < 200 ∨ fastPathOk k = true) :
    CacheInv (urlCacheSet st k v) := by
  refine ⟨length_urlCacheSet st k v hinv.1, ?_⟩
  intro kv hkv
  rcases mem_urlCacheSet st k v kv hkv with h | h
  · exact hinv.2 kv h
  · rw [h]
    exact ⟨hv, hk⟩

/-- On the fast path the cache-free result is the input itself. -/
theorem encodeUrlPure_fastPath (l : List Nat) (h : fastPathOk l = true) :
    encodeUrlPure l = some l := by
  rw [encodeUrlPure, if_pos h]

/-- With a sound cache, every call returns exactly the cache-free result. -/
theorem encodeUrl_fst (st : UrlCache) (url : List Nat) (hinv : CacheInv st) :
    (encodeUrl url st).1 = encodeUrlPure url := by
  unfold encodeUrl
  cases hget : urlCacheGet st url with
  | some v =>
    have hm := urlCacheGet_mem st url v hget
    have := (hinv.2 _ hm).1
    simpa using this.symm
  | none =>
    by_cases hf : fastPathOk url
    · simp [hf, encodeUrlPure_fastPath url hf]
    · rw [encodeUrlPure, if_neg (by simpa using hf)]
      simp only [hf]
      cases h : encodeChars (repairSurrogates url) with
      | none => simp [h]
      | some r => simp [h]

/-- Every call preserves the invariant. -/
theorem cacheInv_step (st : UrlCache) (url : List Nat) (hinv : CacheInv st) :
    CacheInv (encodeUrl url st).2 := by
  unfold encodeUrl
  cases hget : urlCacheGet st url with
  | some v => exact hinv
  | none =>
    by_cases hf : fastPathOk url
    · simp only [hf, if_true]
      exact cacheInv_set st url url hinv (encodeUrlPure_fastPath url hf) (Or.inr hf)
    · simp only [hf, if_false]
      cases h : encodeChars (repairSurrogates url) with
      | none => exact hinv
      | some r =>
        simp only []
        by_cases hlen : url.length < 200
        · simp only [hlen, if_true]
          refine cacheInv_set st url r hinv ?_ (Or.inl hlen)
          rw [encodeUrlPure, if_neg (by simpa using hf), h]
        · simp only [hlen, if_false]
          exact hinv

/-- Every reachable cache state satisfies the invariant. -/
theorem reachable_cacheInv (st : UrlCache) (h : Reachable st) : CacheInv st := by
  induction h with
  | init =>
    refine ⟨by simp [initialCache, MAX_SIZE], ?_⟩
    intro kv hkv
    simp [initialCache] at hkv
  | step url st _ ih => exact cacheInv_step st url ih

/-- Claim C1 (code bug): encode is not total. On two adjacent lone low
surrogates DC00 DC00 the repair pass replaces only the first, the encoding
regex hands the surviving lone surrogate to encodeURI, and the call raises
URIError (modelled as none) instead of returning a string. -/
theorem encodeUrl_adjacent_lone_surrogates_throw :
    (encodeUrl [0xDC00, 0xDC00] initialCache).1 = none := by decide

/-- Claim C3 (code bug): the repair pass is not complete on consecutive
unmatched surrogates. On DC00 DC00 it replaces only the first code unit and
leaves the second, still an unmatched low surrogate, in place. -/
theorem repairSurrogates_misses_adjacent_lone_surrogate :
    repairSurrogates [0xDC00, 0xDC00] = [0xFFFD, 0xDC00] ∧
    isLowSurrogate 0xDC00 = true :=
  ⟨by decide, by decide⟩

/-- Claim C4 (confirmed): from any reachable cache state, encode returns
exactly what the cache-free computation (fast-path check, surrogate repair,
selective encoding) returns for the input, so the result never depends on the
cache contents, on interleaved calls, or on evictions. -/
theorem encodeUrl_cache_transparent (st : UrlCache) (url : List Nat)
    (hst : Reachable st) : (encodeUrl url st).1 = encodeUrlPure url :=
  encodeUrl_fst st url (reachable_cacheInv st hst)

/-- Witness for C4: the transparent result on the string a space b. -/
theorem encodeUrl_cache_transparent_witness :
    (encodeUrl [97, 32, 98] initialCache).1 = encodeUrlPure [97, 32, 98] ∧
    encodeUrlPure [97, 32, 98] = some [97, 37, 50, 48, 98] :=
  ⟨encodeUrl_cache_transparent initialCache [97, 32, 98] Reachable.init,
   by decide⟩

/-- Claim C5 (confirmed): an input of only ASCII code units, without percent,
all of whose code units are in the safe set, is returned unchanged from any
reachable cache state. -/
theorem encodeUrl_fastPath_fixed_point (st : UrlCache) (l : List Nat)
    (hst : Reachable st) (h1 : asciiOnly l = true)
    (h2 : l.contains 0x25 = false) (h3 : allValidUrlChars l = true) :
    (encodeUrl l st).1 = some l := by
  have hf : fastPathOk l = true := by
    unfold fastPathOk
    rw [h1, h2, h3]
    rfl
  rw [encodeUrl_fst st l (reachable_cacheInv st hst),
    encodeUrlPure_fastPath l hf]

/-- Witness for C5: the spec example URL is its own encoding. -/
theorem encodeUrl_fastPath_fixed_point_witness :
    (encodeUrl
      [104, 116, 116, 112, 58, 47, 47, 108, 111, 99, 97, 108, 104, 111, 115,
       116, 47, 102, 111, 111, 47, 98, 97, 114, 46, 104, 116, 109, 108, 63,
       102, 105, 122, 122, 61, 98, 117, 122, 122, 35, 114, 101, 97, 100, 109,
       101] initialCache).1 =
    some
      [104, 116, 116, 112, 58, 47, 47, 108, 111, 99, 97, 108, 104, 111, 115,
       116, 47, 102, 111, 111, 47, 98, 97, 114, 46, 104, 116, 109, 108, 63,
       102, 105, 122, 122, 61, 98, 117, 122, 122, 35, 114, 101, 97, 100, 109,
       101] :=
  encodeUrl_fastPath_fixed_point initialCache _ Reachable.init
    (by decide) (by decide) (by decide)

set_option maxRecDepth 10000 in
/-- Claim C7, counterexample: a 200 code unit all-safe ASCII input goes
through the fast path and is cached despite reaching the length threshold, so
after this call the cache does hold a key of length 200. -/
theorem encodeUrl_caches_length200_key :
    ((encodeUrl (List.replicate 200 97) initialCache).2).entries =
      [(List.replicate 200 97, List.replicate 200 97)] ∧
    (List.replicate 200 97).length = 200 :=
  ⟨by decide, by decide⟩

/-- Claim C7 (amended): every key in a reachable cache either is shorter than
200 code units or entered through the fast path, in which case its stored
value is the key itself; only the full encoding path enforces the length
threshold. -/
theorem encodeUrl_cache_threshold (st : UrlCache) (hst : Reachable st) :
    ∀ kv ∈ st.entries,
      kv.1.length < 200 ∨ (fastPathOk kv.1 = true ∧ kv.2 = kv.1) := by
  intro kv hkv
  have hinv := reachable_cacheInv st hst
  rcases (hinv.2 kv hkv).2 with h | h
  · exact Or.inl h
  · refine Or.inr ⟨h, ?_⟩
    have h1 := (hinv.2 kv hkv).1
    rw [encodeUrlPure_fastPath kv.1 h] at h1
    exact (Option.some.injEq _ _ ▸ h1).symm

/-- Witness for C7 amended: the entry cached by a call on the one-letter
string a. -/
theorem encodeUrl_cache_threshold_witness :
    (([97], [97]) : List Nat × List Nat).1.length < 200 ∨
      (fastPathOk (([97], [97]) : List Nat × List Nat).1 = true ∧
        (([97], [97]) : List Nat × List Nat).2 =
          (([97], [97]) : List Nat × List Nat).1) :=
  encodeUrl_cache_threshold (encodeUrl [97] initialCache).2
    (Reachable.step [97] initialCache Reachable.init) ([97], [97]) (by decide)

/-- Claim C8 (confirmed): every reachable cache stays within 100 entries;
inserting a fresh key into a full cache drops exactly the oldest entry from
the front of the insertion queue and appends the new one at the back; and a
cache hit returns the stored value with the state, hence the insertion order,
completely unchanged. -/
theorem urlCache_bounded_fifo (st : UrlCache) (k v url w : List Nat)
    (hst : Reachable st) :
    st.entries.length ≤ 100 ∧
    (100 ≤ st.entries.length → urlCacheGet st k = none →
      (urlCacheSet st k v).entries = st.entries.tail ++ [(k, v)]) ∧
    (urlCacheGet st url = some w → encodeUrl url st = (some w, st)) := by
  have hinv := reachable_cacheInv st hst
  refine ⟨by simpa [MAX_SIZE] using hinv.1, ?_, ?_⟩
  · intro hfull hnew
    exact urlCacheSet_evicts_oldest st k v (by simpa [MAX_SIZE] using hfull) hnew
  · intro hh
    exact encodeUrl_hit st url w hh

/-- Witness for C8: after caching the string a, a repeated call is a hit that
returns the cached value and leaves the state unchanged. -/
theorem urlCache_bounded_fifo_witness :
    encodeUrl [97] (encodeUrl [97] initialCache).2 =
      (some [97], (encodeUrl [97] initialCache).2) :=
  (urlCache_bounded_fifo (encodeUrl [97] initialCache).2 [98] [99] [97] [97]
    (Reachable.step [97] initialCache Reachable.init)).2.2 (by decide)

/-- Claim C9 (confirmed): for every code unit value, membership in
VALID_URL_CHARS holds exactly for the listed safe ranges; the set is a plain
definition, built once from validRanges and never mutated. -/
theorem VALID_URL_CHARS_spec :
    ∀ c : Nat, VALID_URL_CHARS.contains c = true ↔
      (c = 0x21 ∨ (0x23 ≤ c ∧ c ≤ 0x3B) ∨ c = 0x3D ∨ (0x3F ≤ c ∧ c ≤ 0x5F) ∨
       (0x61 ≤ c ∧ c ≤ 0x7A) ∨ c = 0x7C ∨ c = 0x7E) := by
  intro c
  rw [contains_VALID_URL_CHARS]
  simp only [encodeSafeChar, Bool.or_eq_true, Bool.and_eq_true,
    decide_eq_true_eq]
  omega

/-- Hex digits are safe characters other than the percent sign. -/
theorem isHexDigit_safe (c : Nat) (h : isHexDigit c = true) :
    c ≠ 0x25 ∧ encodeSafeChar c = true := by
  simp only [isHexDigit, Bool.or_eq_true, Bool.and_eq_true,
    decide_eq_true_eq] at h
  simp only [encodeSafeChar, Bool.or_eq_true, Bool.and_eq_true,
    decide_eq_true_eq]
  omega

/-- Safe characters are ASCII. -/
theorem encodeSafeChar_le (c : Nat) (h : encodeSafeChar c = true) : c ≤ 0x7E := by
  simp only [encodeSafeChar, Bool.or_eq_true, Bool.and_eq_true,
    decide_eq_true_eq] at h
  omega

/-- Characters from x7F on are never safe. -/
theorem encodeSafeChar_eq_false (c : Nat) (h : 0x7F ≤ c) :
    encodeSafeChar c = false := by
  cases hs : encodeSafeChar c
  · rfl
  · exact absurd (encodeSafeChar_le c hs) (by omega)

/-- The encodeURI unescaped set is contained in the regex safe set and does
not hold the percent sign. -/
theorem uriUnescaped_safe (c : Nat) (h : uriUnescaped c = true) :
    c ≠ 0x25 ∧ encodeSafeChar c = true := by
  simp only [uriUnescaped, Bool.or_eq_true, Bool.and_eq_true,
    decide_eq_true_eq] at h
  simp only [encodeSafeChar, Bool.or_eq_true, Bool.and_eq_true,
    decide_eq_true_eq]
  omega

/-- A character outside the regex safe set is escaped by encodeURI. -/
theorem uriUnescaped_eq_false (c : Nat) (h : encodeSafeChar c = false) :
    uriUnescaped c = false := by
  cases hu : uriUnescaped c
  · rfl
  · have := (uriUnescaped_safe c hu).2
    simp [h] at this

/-- Safe characters are no surrogates. -/
theorem safe_not_surrogate (c : Nat) (h : encodeSafeChar c = true) :
    isHighSurrogate c = false ∧ isLowSurrogate c = false := by
  have := encodeSafeChar_le c h
  simp only [isHighSurrogate, isLowSurrogate, Bool.and_eq_true,
    decide_eq_true_eq, Bool.and_eq_false_iff, decide_eq_false_iff_not]
  omega

/-- Surrogate code units are not safe. -/
theorem surrogate_not_safe (c : Nat)
    (h : isHighSurrogate c = true ∨ isLowSurrogate c = true) :
    encodeSafeChar c = false := by
  refine encodeSafeChar_eq_false c ?_
  rcases h with h | h <;>
    simp only [isHighSurrogate, isLowSurrogate, Bool.and_eq_true,
      decide_eq_true_eq] at h <;> omega

/-- A high surrogate is not a low surrogate. -/
theorem high_not_low (c : Nat) (h : isHighSurrogate c = true) :
    isLowSurrogate c = false := by
  simp only [isHighSurrogate, Bool.and_eq_true, decide_eq_true_eq] at h
  simp only [isLowSurrogate, Bool.and_eq_false_iff, decide_eq_false_iff_not]
  omega

/-- hexUpper yields a hex digit for values below 16. -/
theorem isHexDigit_hexUpper (n : Nat) (h : n < 16) :
    isHexDigit (hexUpper n) = true := by
  unfold hexUpper
  split <;>
    (simp only [isHexDigit, Bool.or_eq_true, Bool.and_eq_true,
      decide_eq_true_eq]; omega)

/-- Claim C2 (amended): a percent begins a match of the encode regex, and is
then rendered as percent-two-five by the encodeURI replacer, exactly when it
is followed by a non-hex unit, or by a hex unit and then a non-hex unit, or
by nothing at all; a percent followed by a single hex digit at the very end
of the string is not matched and passes through unchanged, unlike the
original claim states. The spec example percent-f-o-o is checked end to
end. -/
theorem invalid_escape_becomes_pct25 :
    (∀ t : List Nat,
      (∃ cs segs, tokenize (0x25 :: t) = Seg.run (0x25 :: cs) :: segs) ↔
        (t = [] ∨ ∃ d t2, t = d :: t2 ∧ (isHexDigit d = false ∨
          ∃ e t3, t2 = e :: t3 ∧ isHexDigit e = false))) ∧
    (∀ cs r, encodeURIstr (0x25 :: cs) = some r →
      ∃ r2, r = 0x25 :: 0x32 :: 0x35 :: r2 ∧ encodeURIstr cs = some r2) ∧
    (encodeUrl [104, 116, 116, 112, 58, 47, 47, 108, 111, 99, 97, 108, 104,
      111, 115, 116, 47, 37, 102, 111, 111] initialCache).1 =
      some [104, 116, 116, 112, 58, 47, 47, 108, 111, 99, 97, 108, 104, 111,
        115, 116, 47, 37, 50, 53, 102, 111, 111] := by
  refine ⟨?_, ?_, by decide⟩
  · intro t
    rcases t with _ | ⟨d, _ | ⟨e, t3⟩⟩
    · exact iff_of_true ⟨[], [], by simp [tokenize]⟩ (Or.inl rfl)
    · cases hd : isHexDigit d
      · refine iff_of_true ⟨[d], [], by simp [tokenize, hd]⟩ ?_
        exact Or.inr ⟨d, [], rfl, Or.inl hd⟩
      · refine iff_of_false ?_ ?_
        · rintro ⟨cs, segs, h⟩
          simp [tokenize, hd] at h
        · rintro (h | ⟨d2, t2, hdt, h2 | ⟨e2, t3, h3, _⟩⟩)
          · exact List.noConfusion h
          · rw [← (List.cons.inj hdt).1] at h2
            simp [hd] at h2
          · rw [← (List.cons.inj hdt).2] at h3
            exact List.noConfusion h3
    · cases hd : isHexDigit d
      · refine iff_of_true ⟨[d], tokenize (e :: t3), by simp [tokenize, hd]⟩ ?_
        exact Or.inr ⟨d, e :: t3, rfl, Or.inl hd⟩
      · cases he : isHexDigit e
        · refine iff_of_true ⟨[d, e], tokenize t3, by simp [tokenize, hd, he]⟩ ?_
          exact Or.inr ⟨d, e :: t3, rfl, Or.inr ⟨e, t3, rfl, he⟩⟩
        · refine iff_of_false ?_ ?_
          · rintro ⟨cs, segs, h⟩
            simp [tokenize, hd, he] at h
          · rintro (h | ⟨d2, t2, hdt, h2 | ⟨e2, t4, h3, h4⟩⟩)
            · exact List.noConfusion h
            · rw [← (List.cons.inj hdt).1] at h2
              simp [hd] at h2
            · rw [← (List.cons.inj hdt).2] at h3
              rw [← (List.cons.inj h3).1] at h4
              simp [he] at h4
  · intro cs r h
    have hstep : encodeURIstr (0x25 :: cs) =
        (encodeURIstr cs).map (fun t => 0x25 :: 0x32 :: 0x35 :: t) := by
      conv_lhs => unfold encodeURIstr
      norm_num [uriUnescaped, isLowSurrogate, isHighSurrogate, utf8pct,
        pctByte, hexUpper]
    rw [hstep] at h
    cases hcs : encodeURIstr cs with
    | none => rw [hcs] at h; exact Option.noConfusion h
    | some r2 =>
      rw [hcs] at h
      simp only [Option.map_some', Option.some.injEq] at h
      exact ⟨r2, h.symm, rfl⟩

/-- Claim C2, counterexample: on the two units percent-2 (a percent followed
by exactly one hex digit at end of string) the claim demands the percent be
encoded, giving 37 50 53 50, but encode returns the input unchanged. -/
theorem pct_hex_at_end_unchanged :
    (encodeUrl [0x25, 0x32] initialCache).1 = some [0x25, 0x32] ∧
    (encodeUrl [0x25, 0x32] initialCache).1 ≠ some [0x25, 0x32, 0x35, 0x32] :=
  ⟨by decide, by decide⟩

/-- Appending a relaxed-shape continuation to a strict block keeps the
relaxed shape. -/
theorem PctStrict.append_pctOk {a b : List Nat} (ha : PctStrict a)
    (hb : PctOk b) : PctOk (a ++ b) := by
  induction ha with
  | nil => simpa using hb
  | safe c rest hc hsafe _ ih => exact PctOk.safe c _ hc hsafe ih
  | trip d e rest hd he _ ih => exact PctOk.trip d e _ hd he ih

/-- Strict blocks are closed under append. -/
theorem PctStrict.append {a b : List Nat} (ha : PctStrict a)
    (hb : PctStrict b) : PctStrict (a ++ b) := by
  induction ha with
  | nil => simpa using hb
  | safe c rest hc hsafe _ ih => exact PctStrict.safe c _ hc hsafe ih
  | trip d e rest hd he _ ih => exact PctStrict.trip d e _ hd he ih

/-- A percent-encoded byte is a strict block. -/
theorem pctByte_strict (b : Nat) (hb : b < 256) : PctStrict (pctByte b) :=
  PctStrict.trip _ _ [] (isHexDigit_hexUpper _ (by omega))
    (isHexDigit_hexUpper _ (by omega)) PctStrict.nil

/-- UTF-8 percent-encoding of a code point in Unicode range is a strict
block. -/
theorem utf8pct_strict (v : Nat) (hv : v < 0x110000) : PctStrict (utf8pct v) := by
  unfold utf8pct
  split
  · next h => exact pctByte_strict v (by omega)
  · split
    · next h2 =>
      exact (pctByte_strict _ (by omega)).append (pctByte_strict _ (by omega))
    · split
      · next h3 =>
        exact ((pctByte_strict _ (by omega)).append
          (pctByte_strict _ (by omega))).append (pctByte_strict _ (by omega))
      · next h3 =>
        exact (((pctByte_strict _ (by omega)).append
          (pctByte_strict _ (by omega))).append
          (pctByte_strict _ (by omega))).append (pctByte_strict _ (by omega))

/-- The output of the encodeURI replacer on code units in UTF-16 range is a
strict block. -/
theorem encodeURIstr_strict (l : List Nat) (hb : ∀ c ∈ l, c < 0x10000) :
    ∀ out, encodeURIstr l = some out → PctStrict out := by
  induction l using encodeURIstr.induct with
  | case1 =>
    intro out hout
    simp only [encodeURIstr, Option.some.injEq] at hout
    rw [← hout]
    exact PctStrict.nil
  | case2 c rest hu ih =>
    intro out hout
    rw [show encodeURIstr (c :: rest) =
        (encodeURIstr rest).map (fun t => c :: t) from by
      conv_lhs => unfold encodeURIstr
      simp [hu]] at hout
    cases hr : encodeURIstr rest with
    | none => rw [hr] at hout; exact Option.noConfusion hout
    | some t =>
      rw [hr] at hout
      simp only [Option.map_some', Option.some.injEq] at hout
      rw [← hout]
      have hsf := uriUnescaped_safe c hu
      exact PctStrict.safe c t hsf.1 hsf.2
        (ih (fun x hx => hb x (List.mem_cons_of_mem c hx)) t hr)
  | case3 c rest hu hlow =>
    intro out hout
    rw [show encodeURIstr (c :: rest) = none from by
      conv_lhs => unfold encodeURIstr
      simp [hu, hlow]] at hout
    exact Option.noConfusion hout
  | case4 c hu hlow hhigh =>
    intro out hout
    rw [show encodeURIstr [c] = none from by
      conv_lhs => unfold encodeURIstr
      simp [hu, hlow, hhigh]] at hout
    exact Option.noConfusion hout
  | case5 c hu hlow hhigh c2 rest2 hlow2 ih =>
    intro out hout
    rw [show encodeURIstr (c :: c2 :: rest2) =
        (encodeURIstr rest2).map
          (fun t => utf8pct (0x10000 + (c - 0xD800) * 0x400 + (c2 - 0xDC00)) ++ t)
        from by
      conv_lhs => unfold encodeURIstr
      simp [hu, hlow, hhigh, hlow2]] at hout
    cases hr : encodeURIstr rest2 with
    | none => rw [hr] at hout; exact Option.noConfusion hout
    | some t =>
      rw [hr] at hout
      simp only [Option.map_some', Option.some.injEq] at hout
      rw [← hout]
      have hcb : c ≤ 0xDBFF := by
        simp only [isHighSurrogate, Bool.and_eq_true, decide_eq_true_eq] at hhigh
        omega
      have hc2b : c2 ≤ 0xDFFF := by
        simp only [isLowSurrogate, Bool.and_eq_true, decide_eq_true_eq] at hlow2
        omega
      refine (utf8pct_strict _ (by omega)).append ?_
      exact ih
        (fun x hx =>
          hb x (List.mem_cons_of_mem c (List.mem_cons_of_mem c2 hx))) t hr
  | case6 c hu hlow hhigh c2 rest2 hlow2 =>
    intro out hout
    rw [show encodeURIstr (c :: c2 :: rest2) = none from by
      conv_lhs => unfold encodeURIstr
      simp [hu, hlow, hhigh, hlow2]] at hout
    exact Option.noConfusion hout
  | case7 c rest hu hlow hhigh ih =>
    intro out hout
    rw [show encodeURIstr (c :: rest) =
        (encodeURIstr rest).map (fun t => utf8pct c ++ t) from by
      conv_lhs => unfold encodeURIstr
      simp [hu, hlow, hhigh]] at hout
    cases hr : encodeURIstr rest with
    | none => rw [hr] at hout; exact Option.noConfusion hout
    | some t =>
      rw [hr] at hout
      simp only [Option.map_some', Option.some.injEq] at hout
      rw [← hout]
      refine (utf8pct_strict c ?_).append
        (ih (fun x hx => hb x (List.mem_cons_of_mem c hx)) t hr)
      have := hb c (List.mem_cons_self c rest)
      omega

/-- A safe non-percent unit is always passed through by the scanner. -/
theorem tokenize_cons_safe (c : Nat) (t : List Nat) (hc : c ≠ 0x25)
    (hs : encodeSafeChar c = true) :
    tokenize (c :: t) = Seg.pass c :: tokenize t := by
  match t with
  | [] => simp [tokenize, hc, hs]
  | [d] => simp [tokenize, hc, hs]
  | d :: e :: r => simp [tokenize, hc, hs]

/-- An unsafe unit always opens a one-unit run. -/
theorem tokenize_cons_mustEncode (c : Nat) (t : List Nat)
    (hs : encodeSafeChar c = false) :
    tokenize (c :: t) = Seg.run [c] :: tokenize t := by
  have hc : c ≠ 0x25 := by
    rintro rfl
    exact absurd hs (by decide)
  match t with
  | [] => simp [tokenize, hc, hs]
  | [d] => simp [tokenize, hc, hs]
  | d :: e :: r => simp [tokenize, hc, hs]

/-- A valid triplet is passed through unit by unit. -/
theorem tokenize_trip (d e : Nat) (r : List Nat) (hd : isHexDigit d = true)
    (he : isHexDigit e = true) :
    tokenize (0x25 :: d :: e :: r) =
      Seg.pass 0x25 :: Seg.pass d :: Seg.pass e :: tokenize r := by
  have hds := isHexDigit_safe d hd
  have hes := isHexDigit_safe e he
  rw [show tokenize (0x25 :: d :: e :: r) =
      Seg.pass 0x25 :: tokenize (d :: e :: r) from by simp [tokenize, hd, he],
    tokenize_cons_safe d (e :: r) hds.1 hds.2,
    tokenize_cons_safe e r hes.1 hes.2]

/-- The scanner produces well-shaped segment lists on UTF-16 input. -/
theorem segsOk_tokenize_aux :
    ∀ n l, List.length l ≤ n → (∀ c ∈ l, c < 0x10000) → SegsOk (tokenize l) := by
  intro n
  induction n with
  | zero =>
    intro l hl _
    have : l = [] := List.length_eq_zero.mp (Nat.le_zero.mp hl)
    rw [this]
    exact SegsOk.nil
  | succ n ih =>
    intro l hl hb
    match l with
    | [] => exact SegsOk.nil
    | c :: t =>
      have hbt : ∀ x ∈ t, x < 0x10000 :=
        fun x hx => hb x (List.mem_cons_of_mem c hx)
      have hlt : t.length ≤ n := by
        simp only [List.length_cons] at hl
        omega
      by_cases hc : c = 0x25
      · subst hc
        match t with
        | [] =>
          rw [show tokenize [0x25] = [Seg.run [0x25]] from by simp [tokenize]]
          exact SegsOk.run [0x25] [] (by intro x hx; simp at hx; omega) SegsOk.nil
        | [d] =>
          cases hd : isHexDigit d
          · rw [show tokenize [0x25, d] = [Seg.run [0x25, d]] from by
              simp [tokenize, hd]]
            refine SegsOk.run [0x25, d] [] ?_ SegsOk.nil
            intro x hx
            simp at hx
            rcases hx with rfl | rfl
            · omega
            · exact hb x (by simp)
          · have hds := isHexDigit_safe d hd
            rw [show tokenize [0x25, d] = Seg.pass 0x25 :: tokenize [d] from by
                simp [tokenize, hd],
              tokenize_cons_safe d [] hds.1 hds.2]
            exact SegsOk.passTail d hd
        | d :: e :: r =>
          have hbr : ∀ x ∈ r, x < 0x10000 := fun x hx =>
            hbt x (List.mem_cons_of_mem d (List.mem_cons_of_mem e hx))
          cases hd : isHexDigit d
          · rw [show tokenize (0x25 :: d :: e :: r) =
                Seg.run [0x25, d] :: tokenize (e :: r) from by
              simp [tokenize, hd]]
            refine SegsOk.run [0x25, d] _ ?_ ?_
            · intro x hx
              simp at hx
              rcases hx with rfl | rfl
              · omega
              · exact hbt x (by simp)
            · refine ih (e :: r) ?_ (fun x hx => hbt x (List.mem_cons_of_mem d hx))
              simp only [List.length_cons] at hl ⊢
              omega
          · cases he : isHexDigit e
            · rw [show tokenize (0x25 :: d :: e :: r) =
                  Seg.run [0x25, d, e] :: tokenize r from by
                simp [tokenize, hd, he]]
              refine SegsOk.run [0x25, d, e] _ ?_ ?_
              · intro x hx
                simp at hx
                rcases hx with rfl | rfl | rfl
                · omega
                · exact hbt x (by simp)
                · exact hbt x (by simp)
              · refine ih r ?_ hbr
                simp only [List.length_cons] at hl
                omega
            · rw [tokenize_trip d e r hd he]
              refine SegsOk.passTrip d e _ hd he ?_
              refine ih r ?_ hbr
              simp only [List.length_cons] at hl
              omega
      · cases hs : encodeSafeChar c
        · rw [tokenize_cons_mustEncode c t hs]
          exact SegsOk.run [c] _
            (by
              intro x hx
              simp at hx
              rw [hx]
              exact hb c (by simp))
            (ih t hlt hbt)
        · rw [tokenize_cons_safe c t hc hs]
          exact SegsOk.passSafe c _ hc hs (ih t hlt hbt)

/-- Wrapper of the previous aux over the list length. -/
theorem segsOk_tokenize (l : List Nat) (hb : ∀ c ∈ l, c < 0x10000) :
    SegsOk (tokenize l) :=
  segsOk_tokenize_aux l.length l (Nat.le_refl _) hb

/-- Coalescing keeps segment lists well shaped. -/
theorem segsOk_coalesce (segs : List Seg) (h : SegsOk segs) :
    SegsOk (coalesce segs) := by
  induction h with
  | nil => exact SegsOk.nil
  | run cs rest hcs _ ih =>
    rw [show coalesce (Seg.run cs :: rest) =
        match coalesce rest with
        | Seg.run b :: t => Seg.run (cs ++ b) :: t
        | t => Seg.run cs :: t from rfl]
    cases hco : coalesce rest with
    | nil => exact SegsOk.run cs [] hcs SegsOk.nil
    | cons s t =>
      cases s with
      | pass c =>
        rw [hco] at ih
        exact SegsOk.run cs _ hcs ih
      | run b =>
        rw [hco] at ih
        cases ih with
        | run b2 t2 hb2 ht2 =>
          refine SegsOk.run (cs ++ b) t ?_ ht2
          intro x hx
          rcases List.mem_append.mp hx with hx | hx
          · exact hcs x hx
          · exact hb2 x hx
  | passSafe c rest hc hs _ ih =>
    rw [show coalesce (Seg.pass c :: rest) = Seg.pass c :: coalesce rest from rfl]
    exact SegsOk.passSafe c _ hc hs ih
  | passTrip d e rest hd he _ ih =>
    rw [show coalesce (Seg.pass 0x25 :: Seg.pass d :: Seg.pass e :: rest) =
        Seg.pass 0x25 :: Seg.pass d :: Seg.pass e :: coalesce rest from rfl]
    exact SegsOk.passTrip d e _ hd he ih
  | passTail d hd =>
    exact SegsOk.passTail d hd

/-- Rendering a well-shaped segment list yields encoded-shape output. -/
theorem renderSegs_pctOk (segs : List Seg) (h : SegsOk segs) :
    ∀ r, renderSegs segs = some r → PctOk r := by
  induction h with
  | nil =>
    intro r hr
    simp only [renderSegs, Option.some.injEq] at hr
    rw [← hr]
    exact PctOk.nil
  | run cs rest hcs _ ih =>
    intro r hr
    rw [show renderSegs (Seg.run cs :: rest) =
        match renderSeg (Seg.run cs), renderSegs rest with
        | some a, some b => some (a ++ b)
        | _, _ => none from rfl] at hr
    cases he : encodeURIstr cs with
    | none => rw [show renderSeg (Seg.run cs) = none from he] at hr; exact Option.noConfusion hr
    | some a =>
      rw [show renderSeg (Seg.run cs) = some a from he] at hr
      cases hrs : renderSegs rest with
      | none => rw [hrs] at hr; exact Option.noConfusion hr
      | some b =>
        rw [hrs] at hr
        simp only [Option.some.injEq] at hr
        rw [← hr]
        exact (encodeURIstr_strict cs hcs a he).append_pctOk (ih b hrs)
  | passSafe c rest hc hs _ ih =>
    intro r hr
    cases hrs : renderSegs rest with
    | none =>
      rw [show renderSegs (Seg.pass c :: rest) = none from by
        simp only [renderSegs, renderSeg, hrs]] at hr
      exact Option.noConfusion hr
    | some b =>
      rw [show renderSegs (Seg.pass c :: rest) = some (c :: b) from by
        simp only [renderSegs, renderSeg, hrs, List.cons_append,
          List.nil_append]] at hr
      simp only [Option.some.injEq] at hr
      rw [← hr]
      exact PctOk.safe c b hc hs (ih b hrs)
  | passTrip d e rest hd he _ ih =>
    intro r hr
    cases hrs : renderSegs rest with
    | none =>
      rw [show renderSegs (Seg.pass 0x25 :: Seg.pass d :: Seg.pass e :: rest) =
          none from by
        simp only [renderSegs, renderSeg, hrs]] at hr
      exact Option.noConfusion hr
    | some b =>
      rw [show renderSegs (Seg.pass 0x25 :: Seg.pass d :: Seg.pass e :: rest) =
          some (0x25 :: d :: e :: b) from by
        simp only [renderSegs, renderSeg, hrs, List.cons_append,
          List.nil_append]] at hr
      simp only [Option.some.injEq] at hr
      rw [← hr]
      exact PctOk.trip d e b hd he (ih b hrs)
  | passTail d hd =>
    intro r hr
    rw [show renderSegs [Seg.pass 0x25, Seg.pass d] = some [0x25, d] from rfl] at hr
    simp only [Option.some.injEq] at hr
    rw [← hr]
    exact PctOk.tail2 d hd

/-- The selective encoder only produces encoded-shape output. -/
theorem encodeChars_pctOk (l : List Nat) (hb : ∀ c ∈ l, c < 0x10000)
    (r : List Nat) (h : encodeChars l = some r) : PctOk r :=
  renderSegs_pctOk (coalesce (tokenize l))
    (segsOk_coalesce (tokenize l) (segsOk_tokenize l hb)) r h

/-- On encoded-shape input the scanner finds no match at all. -/
theorem tokenize_map_pass (r : List Nat) (h : PctOk r) :
    tokenize r = r.map Seg.pass := by
  induction h with
  | nil => rfl
  | safe c rest hc hs _ ih =>
    rw [tokenize_cons_safe c rest hc hs, ih]
    rfl
  | trip d e rest hd he _ ih =>
    rw [tokenize_trip d e rest hd he, ih]
    rfl
  | tail2 d hd =>
    have hds := isHexDigit_safe d hd
    rw [show tokenize [0x25, d] = Seg.pass 0x25 :: tokenize [d] from by
        simp [tokenize, hd],
      tokenize_cons_safe d [] hds.1 hds.2]
    rfl

/-- Coalescing a pass-only segment list changes nothing. -/
theorem coalesce_map_pass (r : List Nat) :
    coalesce (r.map Seg.pass) = r.map Seg.pass := by
  induction r with
  | nil => rfl
  | cons c rest ih =>
    simp only [List.map_cons]
    rw [show coalesce (Seg.pass c :: rest.map Seg.pass) =
        Seg.pass c :: coalesce (rest.map Seg.pass) from rfl, ih]

/-- Rendering a pass-only segment list reproduces the string. -/
theorem renderSegs_map_pass (r : List Nat) :
    renderSegs (r.map Seg.pass) = some r := by
  induction r with
  | nil => rfl
  | cons c rest ih =>
    simp only [List.map_cons, renderSegs, renderSeg, ih, List.cons_append,
      List.nil_append]

/-- Encoded-shape strings are fixed points of the selective encoder. -/
theorem encodeChars_of_pctOk (r : List Nat) (h : PctOk r) :
    encodeChars r = some r := by
  unfold encodeChars
  rw [tokenize_map_pass r h, coalesce_map_pass, renderSegs_map_pass]

/-- Encoded-shape strings are ASCII. -/
theorem pctOk_ascii (r : List Nat) (h : PctOk r) : ∀ c ∈ r, c ≤ 0x7E := by
  induction h with
  | nil => intro c hc; simp at hc
  | safe c rest _ hs _ ih =>
    intro x hx
    rcases List.mem_cons.mp hx with rfl | hx
    · exact encodeSafeChar_le x hs
    · exact ih x hx
  | trip d e rest hd he _ ih =>
    intro x hx
    have hd2 := encodeSafeChar_le d (isHexDigit_safe d hd).2
    have he2 := encodeSafeChar_le e (isHexDigit_safe e he).2
    rcases List.mem_cons.mp hx with rfl | hx
    · omega
    · rcases List.mem_cons.mp hx with rfl | hx
      · omega
      · rcases List.mem_cons.mp hx with rfl | hx
        · omega
        · exact ih x hx
  | tail2 d hd =>
    intro x hx
    have hd2 := encodeSafeChar_le d (isHexDigit_safe d hd).2
    rcases List.mem_cons.mp hx with rfl | hx
    · omega
    · rcases List.mem_cons.mp hx with rfl | hx
      · omega
      · simp at hx

/-- The surrogate repair pass is the identity away from surrogates. -/
theorem repairGo_id_aux :
    ∀ n (b : Bool) (l : List Nat), l.length ≤ n →
      (∀ c ∈ l, c < 0xD800) → repairGo b l = l := by
  intro n
  induction n with
  | zero =>
    intro b l hl _
    rw [List.length_eq_zero.mp (Nat.le_zero.mp hl)]
    rfl
  | succ n ih =>
    intro b l hl hs
    match l with
    | [] => rfl
    | [a] =>
      have ha := hs a (by simp)
      have hha : isHighSurrogate a = false := by
        simp only [isHighSurrogate, Bool.and_eq_false_iff,
          decide_eq_false_iff_not]
        omega
      have hla : isLowSurrogate a = false := by
        simp only [isLowSurrogate, Bool.and_eq_false_iff,
          decide_eq_false_iff_not]
        omega
      show repairGo b [a] = [a]
      unfold repairGo
      simp [hha, hla]
    | a :: c :: rest =>
      have ha := hs a (by simp)
      have hc := hs c (by simp)
      have hha : isHighSurrogate a = false := by
        simp only [isHighSurrogate, Bool.and_eq_false_iff,
          decide_eq_false_iff_not]
        omega
      have hlc : isLowSurrogate c = false := by
        simp only [isLowSurrogate, Bool.and_eq_false_iff,
          decide_eq_false_iff_not]
        omega
      have hla : isLowSurrogate a = false := by
        simp only [isLowSurrogate, Bool.and_eq_false_iff,
          decide_eq_false_iff_not]
        omega
      rw [show repairGo b (a :: c :: rest) =
          a :: repairGo false (c :: rest) from by
        simp [repairGo, hha, hla, hlc]]
      rw [ih false (c :: rest) (by simp only [List.length_cons] at hl ⊢; omega)
        (fun x hx => hs x (List.mem_cons_of_mem a hx))]

/-- ASCII lists pass the repair step unchanged. -/
theorem repairSurrogates_id (l : List Nat) (h : ∀ c ∈ l, c < 0xD800) :
    repairSurrogates l = l :=
  repairGo_id_aux l.length true l (Nat.le_refl _) h

/-- The repair step keeps code units within UTF-16 range. -/
theorem repairGo_bounded_aux :
    ∀ n (b : Bool) (l : List Nat), l.length ≤ n →
      (∀ c ∈ l, c < 0x10000) → ∀ x ∈ repairGo b l, x < 0x10000 := by
  intro n
  induction n with
  | zero =>
    intro b l hl _
    rw [List.length_eq_zero.mp (Nat.le_zero.mp hl)]
    intro x hx
    simp [repairGo] at hx
  | succ n ih =>
    intro b l hl hs
    rcases l with _ | ⟨a, t⟩
    · intro x hx
      simp [repairGo] at hx
    rcases t with _ | ⟨c, rest⟩
    · intro x hx
      unfold repairGo at hx
      split at hx
      · simp at hx; omega
      · split at hx
        · simp at hx; omega
        · simp at hx
          rw [hx]
          exact hs a (by simp)
    · intro x hx
      have hlen : (c :: rest).length ≤ n := by
        simp only [List.length_cons] at hl ⊢
        omega
      have hlen2 : rest.length ≤ n := by
        simp only [List.length_cons] at hl ⊢
        omega
      have hsc : ∀ y ∈ c :: rest, y < 0x10000 :=
        fun y hy => hs y (List.mem_cons_of_mem a hy)
      have hsr : ∀ y ∈ rest, y < 0x10000 :=
        fun y hy => hsc y (List.mem_cons_of_mem c hy)
      unfold repairGo at hx
      split at hx
      · rcases List.mem_cons.mp hx with rfl | hx
        · omega
        · exact ih false (c :: rest) hlen hsc x hx
      · split at hx
        · rcases List.mem_cons.mp hx with rfl | hx
          · exact hs x (List.mem_cons_self x (c :: rest))
          · rcases List.mem_cons.mp hx with rfl | hx
            · omega
            · exact ih false rest hlen2 hsr x hx
        · split at hx
          · rcases List.mem_cons.mp hx with rfl | hx
            · omega
            · rcases List.mem_cons.mp hx with rfl | hx
              · exact hsc x (List.mem_cons_self x rest)
              · exact ih false rest hlen2 hsr x hx
          · rcases List.mem_cons.mp hx with rfl | hx
            · exact hs x (List.mem_cons_self x (c :: rest))
            · exact ih false (c :: rest) hlen hsc x hx

/-- Lists of safe non-percent units have the encoded shape. -/
theorem pctOk_of_props (l : List Nat)
    (hv : ∀ c ∈ l, encodeSafeChar c = true) (hp : ∀ c ∈ l, c ≠ 0x25) :
    PctOk l := by
  induction l with
  | nil => exact PctOk.nil
  | cons c rest ih =>
    exact PctOk.safe c rest (hp c (List.mem_cons_self c rest))
      (hv c (List.mem_cons_self c rest))
      (ih (fun x hx => hv x (List.mem_cons_of_mem c hx))
        (fun x hx => hp x (List.mem_cons_of_mem c hx)))

/-- Fast-path inputs already have the encoded shape. -/
theorem pctOk_fastPath (l : List Nat) (h : fastPathOk l = true) : PctOk l := by
  have h2 : ((asciiOnly l = true ∧ (l.contains 0x25) = false) ∧
      allValidUrlChars l = true) := by
    simpa only [fastPathOk, Bool.and_eq_true, Bool.not_eq_true'] using h
  have hv : ∀ c ∈ l, encodeSafeChar c = true := by
    intro c hc
    rw [← contains_VALID_URL_CHARS]
    have := h2.2
    simp only [allValidUrlChars, List.all_eq_true] at this
    exact this c hc
  have hp : ∀ c ∈ l, c ≠ 0x25 := by
    intro c hc hcc
    rw [hcc] at hc
    have : l.contains 0x25 = true := List.elem_iff.mpr hc
    rw [h2.1.2] at this
    exact Bool.noConfusion this
  exact pctOk_of_props l hv hp

/-- Results of the cache-free computation have the encoded shape. -/
theorem encodeUrlPure_pctOk (s r : List Nat) (hb : ∀ c ∈ s, c < 0x10000)
    (h : encodeUrlPure s = some r) : PctOk r := by
  unfold encodeUrlPure at h
  split at h
  · next hf =>
    simp only [Option.some.injEq] at h
    rw [← h]
    exact pctOk_fastPath s hf
  · next hf =>
    exact encodeChars_pctOk (repairSurrogates s)
      (repairGo_bounded_aux s.length true s (Nat.le_refl _) hb) r h

/-- Encoded-shape strings are fixed points of the cache-free computation. -/
theorem encodeUrlPure_of_pctOk (r : List Nat) (h : PctOk r) :
    encodeUrlPure r = some r := by
  unfold encodeUrlPure
  split
  · rfl
  · rw [repairSurrogates_id r
      (fun c hc => lt_of_le_of_lt (pctOk_ascii r h c hc) (by omega)),
      encodeChars_of_pctOk r h]

/-- Claim C10 (confirmed): whenever encode returns a result on a UTF-16
string, calling encode on that result, in the state the first call left
behind, returns the result itself: the output consists only of safe units and
complete escape triplets (with at most a trailing percent-hex pair), none of
which the encode regex matches again. -/
theorem encodeUrl_idempotent (st : UrlCache) (s r : List Nat)
    (hst : Reachable st) (hb : ∀ c ∈ s, c < 0x10000)
    (h : (encodeUrl s st).1 = some r) :
    (encodeUrl r (encodeUrl s st).2).1 = some r := by
  rw [encodeUrl_fst st s (reachable_cacheInv st hst)] at h
  have h2 : encodeUrlPure r = some r :=
    encodeUrlPure_of_pctOk r (encodeUrlPure_pctOk s r hb h)
  rw [encodeUrl_fst (encodeUrl s st).2 r
    (reachable_cacheInv _ (Reachable.step s st hst)), h2]

/-- Witness for C10: encoding a space once and then re-encoding the output
leaves it untouched. -/
theorem encodeUrl_idempotent_witness :
    (encodeUrl [97, 37, 50, 48, 98] (encodeUrl [97, 32, 98] initialCache).2).1 =
      some [97, 37, 50, 48, 98] :=
  encodeUrl_idempotent initialCache [97, 32, 98] [97, 37, 50, 48, 98]
    Reachable.init (by decide) (by decide)

/-- Coalescing past a leading run merges with a following run, if any. -/
theorem coalesce_run_cons (cs : List Nat) (segs : List Seg) :
    coalesce (Seg.run cs :: segs) =
      match coalesce segs with
      | Seg.run b :: t => Seg.run (cs ++ b) :: t
      | t => Seg.run cs :: t := rfl

/-- Rendering past a leading pass prepends the unit. -/
theorem renderSegs_pass_cons (c : Nat) (segs : List Seg) :
    renderSegs (Seg.pass c :: segs) =
      (renderSegs segs).map (fun t => c :: t) := by
  cases hrs : renderSegs segs with
  | none => simp only [renderSegs, renderSeg, hrs, Option.map_none']
  | some b =>
    simp only [renderSegs, renderSeg, hrs, Option.map_some',
      List.singleton_append]

/-- Rendering past a leading run binds the encodeURI image of the run. -/
theorem renderSegs_run_cons (cs : List Nat) (segs : List Seg) :
    renderSegs (Seg.run cs :: segs) =
      match encodeURIstr cs, renderSegs segs with
      | some a, some b => some (a ++ b)
      | _, _ => none := rfl

/-- One encodeURI step on a plain (non-surrogate, escaped) unit. -/
theorem encodeURIstr_cons_plain (c : Nat) (rest : List Nat)
    (hnu : uriUnescaped c = false) (hlo : isLowSurrogate c = false)
    (hhi : isHighSurrogate c = false) :
    encodeURIstr (c :: rest) =
      (encodeURIstr rest).map (fun t => utf8pct c ++ t) := by
  conv_lhs => unfold encodeURIstr
  simp [hnu, hlo, hhi]

/-- One encodeURI step on a correctly paired surrogate pair. -/
theorem encodeURIstr_cons_pair (c c2 : Nat) (rest : List Nat)
    (hnu : uriUnescaped c = false) (hhi : isHighSurrogate c = true)
    (hlo2 : isLowSurrogate c2 = true) :
    encodeURIstr (c :: c2 :: rest) = (encodeURIstr rest).map
      (fun t => utf8pct (0x10000 + (c - 0xD800) * 0x400 + (c2 - 0xDC00)) ++ t) := by
  have hlo : isLowSurrogate c = false := high_not_low c hhi
  conv_lhs => unfold encodeURIstr
  simp [hnu, hlo, hhi, hlo2]

/-- Surrogate well-formedness passes over a non-high head. -/
theorem surrogatesWellFormed_tail (c : Nat) (rest : List Nat)
    (hnh : isHighSurrogate c = false)
    (h : surrogatesWellFormed (c :: rest) = true) :
    surrogatesWellFormed rest = true := by
  rcases rest with _ | ⟨c2, rest2⟩
  · rfl
  · unfold surrogatesWellFormed at h
    simp only [hnh, Bool.false_eq_true, if_false, Bool.and_eq_true,
      Bool.not_eq_true'] at h
    exact h.2

/-- In a well-formed sequence the head is never a stray low surrogate. -/
theorem surrogatesWellFormed_head_not_low (c : Nat) (rest : List Nat)
    (hnh : isHighSurrogate c = false)
    (h : surrogatesWellFormed (c :: rest) = true) :
    isLowSurrogate c = false := by
  rcases rest with _ | ⟨c2, rest2⟩ <;>
    (unfold surrogatesWellFormed at h
     simp only [hnh, Bool.false_eq_true, if_false, Bool.and_eq_true,
       Bool.not_eq_true'] at h)
  · exact h.2
  · exact h.1

/-- In a well-formed sequence a high surrogate head is followed by a low
surrogate, and the remainder is well formed. -/
theorem surrogatesWellFormed_pair (c c2 : Nat) (rest2 : List Nat)
    (hhi : isHighSurrogate c = true)
    (h : surrogatesWellFormed (c :: c2 :: rest2) = true) :
    isLowSurrogate c2 = true ∧ surrogatesWellFormed rest2 = true := by
  unfold surrogatesWellFormed at h
  simp only [hhi, if_true, Bool.and_eq_true] at h
  exact h

/-- A well-formed sequence never ends in a high surrogate. -/
theorem surrogatesWellFormed_single_high (c : Nat)
    (hhi : isHighSurrogate c = true) :
    surrogatesWellFormed [c] = false := by
  unfold surrogatesWellFormed
  simp [hhi]

/-- Escape validity passes over a non-percent head. -/
theorem escapesAllValid_cons (c : Nat) (rest : List Nat) (hc : c ≠ 0x25)
    (h : escapesAllValid (c :: rest) = true) :
    escapesAllValid rest = true := by
  rcases rest with _ | ⟨d, _ | ⟨e, r⟩⟩
  · rfl
  · unfold escapesAllValid at h
    simpa [hc] using h
  · unfold escapesAllValid at h
    simpa [hc] using h

/-- A percent head in an all-valid sequence opens a hex triplet. -/
theorem escapesAllValid_trip (d e : Nat) (r : List Nat)
    (h : escapesAllValid (0x25 :: d :: e :: r) = true) :
    isHexDigit d = true ∧ isHexDigit e = true ∧ escapesAllValid r = true := by
  unfold escapesAllValid at h
  simp at h
  exact ⟨h.1.1, h.1.2, h.2⟩

/-- Definitional equation of the claim-side encoder on one trailing unit. -/
theorem specSel_eq_one (c : Nat) :
    specSelectiveEncode [c] =
      if VALID_URL_CHARS.contains c then [c] else utf8pct c := rfl

/-- Definitional equation of the claim-side encoder on two or more units. -/
theorem specSel_eq_two (c c2 : Nat) (rest2 : List Nat) :
    specSelectiveEncode (c :: c2 :: rest2) =
      if VALID_URL_CHARS.contains c then c :: specSelectiveEncode (c2 :: rest2)
      else if isHighSurrogate c && isLowSurrogate c2 then
        utf8pct (0x10000 + (c - 0xD800) * 0x400 + (c2 - 0xDC00)) ++
          specSelectiveEncode rest2
      else utf8pct c ++ specSelectiveEncode (c2 :: rest2) := rfl

/-- The claim-side encoder passes a safe unit. -/
theorem specSel_cons_safe (c : Nat) (rest : List Nat)
    (hcon : VALID_URL_CHARS.contains c = true) :
    specSelectiveEncode (c :: rest) = c :: specSelectiveEncode rest := by
  rcases rest with _ | ⟨c2, rest2⟩
  · rw [specSel_eq_one, hcon]
    simp [specSelectiveEncode]
  · rw [specSel_eq_two, hcon]
    simp

/-- The claim-side encoder expands an unsafe non-high unit. -/
theorem specSel_cons_mustEncode (c : Nat) (rest : List Nat)
    (hcon : VALID_URL_CHARS.contains c = false)
    (hhi : isHighSurrogate c = false) :
    specSelectiveEncode (c :: rest) = utf8pct c ++ specSelectiveEncode rest := by
  rcases rest with _ | ⟨c2, rest2⟩
  · rw [specSel_eq_one, hcon]
    simp [specSelectiveEncode]
  · rw [specSel_eq_two, hcon, hhi]
    simp

/-- The claim-side encoder expands a surrogate pair as one code point. -/
theorem specSel_pair (c c2 : Nat) (rest2 : List Nat)
    (hcon : VALID_URL_CHARS.contains c = false)
    (hhi : isHighSurrogate c = true) (hlo2 : isLowSurrogate c2 = true) :
    specSelectiveEncode (c :: c2 :: rest2) =
      utf8pct (0x10000 + (c - 0xD800) * 0x400 + (c2 - 0xDC00)) ++
        specSelectiveEncode rest2 := by
  rw [specSel_eq_two, hcon, hhi, hlo2]
  simp

/-- The claim-side encoder is the identity on all-safe strings. -/
theorem specSel_id (l : List Nat)
    (h : ∀ c ∈ l, VALID_URL_CHARS.contains c = true) :
    specSelectiveEncode l = l := by
  induction l with
  | nil => rfl
  | cons c rest ih =>
    rw [specSel_cons_safe c rest (h c (List.mem_cons_self c rest)),
      ih (fun x hx => h x (List.mem_cons_of_mem c hx))]

/-- Fast-path inputs consist of safe units only. -/
theorem fastPath_all_safe (l : List Nat) (h : fastPathOk l = true) :
    ∀ c ∈ l, VALID_URL_CHARS.contains c = true := by
  intro c hc
  have h2 : allValidUrlChars l = true := by
    simp only [fastPathOk, Bool.and_eq_true] at h
    exact h.2
  simp only [allValidUrlChars, List.all_eq_true] at h2
  exact h2 c hc

/-- With well-formed surrogates and only valid escapes, the embedded encoder
computes exactly the claim-side per-character encoding. -/
theorem encodeChars_spec_aux :
    ∀ n l, List.length l ≤ n → surrogatesWellFormed l = true →
      escapesAllValid l = true →
      encodeChars l = some (specSelectiveEncode l) := by
  intro n
  induction n with
  | zero =>
    intro l hl _ _
    rw [List.length_eq_zero.mp (Nat.le_zero.mp hl)]
    rfl
  | succ n ih =>
    intro l hl hwf hesc
    rcases l with _ | ⟨c, rest⟩
    · rfl
    by_cases hc : c = 0x25
    · subst hc
      rcases rest with _ | ⟨d, _ | ⟨e, r⟩⟩
      · exact absurd hesc (by decide)
      · exact absurd hesc (by simp [escapesAllValid])
      · obtain ⟨hd, he, hres⟩ := escapesAllValid_trip d e r hesc
        have hds := isHexDigit_safe d hd
        have hes := isHexDigit_safe e he
        have hnhd : isHighSurrogate d = false := (safe_not_surrogate d hds.2).1
        have hnhe : isHighSurrogate e = false := (safe_not_surrogate e hes.2).1
        have hwf1 := surrogatesWellFormed_tail _ _ (by decide) hwf
        have hwf2 := surrogatesWellFormed_tail _ _ hnhd hwf1
        have hwf3 := surrogatesWellFormed_tail _ _ hnhe hwf2
        have hlen : r.length ≤ n := by
          simp only [List.length_cons] at hl
          omega
        have ihr := ih r hlen hwf3 hres
        unfold encodeChars at ihr ⊢
        rw [tokenize_trip d e r hd he,
          show coalesce (Seg.pass 0x25 :: Seg.pass d :: Seg.pass e ::
              tokenize r) =
            Seg.pass 0x25 :: Seg.pass d :: Seg.pass e ::
              coalesce (tokenize r) from rfl,
          renderSegs_pass_cons, renderSegs_pass_cons, renderSegs_pass_cons,
          ihr,
          specSel_cons_safe 0x25 _ (by decide),
          specSel_cons_safe d _
            (by rw [contains_VALID_URL_CHARS]; exact hds.2),
          specSel_cons_safe e _
            (by rw [contains_VALID_URL_CHARS]; exact hes.2)]
        rfl
    · cases hs : encodeSafeChar c
      · have hcon : VALID_URL_CHARS.contains c = false := by
          rw [contains_VALID_URL_CHARS]
          exact hs
        have hnu : uriUnescaped c = false := uriUnescaped_eq_false c hs
        cases hhi : isHighSurrogate c
        · have hlo : isLowSurrogate c = false :=
            surrogatesWellFormed_head_not_low c rest hhi hwf
          have hwt := surrogatesWellFormed_tail c rest hhi hwf
          have het := escapesAllValid_cons c rest hc hesc
          have hlen : rest.length ≤ n := by
            simp only [List.length_cons] at hl
            omega
          have ihr := ih rest hlen hwt het
          unfold encodeChars at ihr ⊢
          rw [tokenize_cons_mustEncode c rest hs, coalesce_run_cons,
            specSel_cons_mustEncode c rest hcon hhi]
          cases hco : coalesce (tokenize rest) with
          | nil =>
            rw [hco] at ihr
            have hsp : specSelectiveEncode rest = [] := by
              simpa [renderSegs] using ihr.symm
            rw [renderSegs_run_cons,
              encodeURIstr_cons_plain c [] hnu hlo hhi]
            simp [encodeURIstr, renderSegs, hsp]
          | cons s t =>
            cases s with
            | pass p =>
              rw [hco] at ihr
              rw [renderSegs_run_cons,
                encodeURIstr_cons_plain c [] hnu hlo hhi, ihr]
              simp [encodeURIstr]
            | run b =>
              rw [hco] at ihr
              rw [renderSegs_run_cons] at ihr
              cases heb : encodeURIstr b with
              | none =>
                rw [heb] at ihr
                exact Option.noConfusion ihr
              | some eb =>
                rw [heb] at ihr
                cases hrt : renderSegs t with
                | none =>
                  rw [hrt] at ihr
                  exact Option.noConfusion ihr
                | some rt =>
                  rw [hrt] at ihr
                  simp only [Option.some.injEq] at ihr
                  show renderSegs (Seg.run (c :: b) :: t) =
                    some (utf8pct c ++ specSelectiveEncode rest)
                  rw [renderSegs_run_cons,
                    encodeURIstr_cons_plain c b hnu hlo hhi, heb, hrt]
                  simp only [Option.map_some', Option.some.injEq]
                  rw [← ihr]
                  simp
        · rcases rest with _ | ⟨c2, rest2⟩
          · rw [surrogatesWellFormed_single_high c hhi] at hwf
            exact Bool.noConfusion hwf
          · obtain ⟨hlo2, hwf2⟩ :=
              surrogatesWellFormed_pair c c2 rest2 hhi hwf
            have hs2 : encodeSafeChar c2 = false :=
              surrogate_not_safe c2 (Or.inr hlo2)
            have hc2 : c2 ≠ 0x25 := by
              rintro rfl
              exact absurd hs2 (by decide)
            have he1 := escapesAllValid_cons c _ hc hesc
            have he2 := escapesAllValid_cons c2 rest2 hc2 he1
            have hlen : rest2.length ≤ n := by
              simp only [List.length_cons] at hl
              omega
            have ihr := ih rest2 hlen hwf2 he2
            unfold encodeChars at ihr ⊢
            rw [tokenize_cons_mustEncode c _ hs, tokenize_cons_mustEncode c2 _ hs2,
              coalesce_run_cons, coalesce_run_cons,
              specSel_pair c c2 rest2 hcon hhi hlo2]
            cases hco : coalesce (tokenize rest2) with
            | nil =>
              rw [hco] at ihr
              have hsp : specSelectiveEncode rest2 = [] := by
                simpa [renderSegs] using ihr.symm
              show renderSegs (Seg.run [c, c2] :: ([] : List Seg)) =
                some (utf8pct (0x10000 + (c - 0xD800) * 0x400 + (c2 - 0xDC00)) ++
                  specSelectiveEncode rest2)
              rw [renderSegs_run_cons,
                encodeURIstr_cons_pair c c2 [] hnu hhi hlo2]
              simp [encodeURIstr, renderSegs, hsp]
            | cons s t =>
              cases s with
              | pass p =>
                rw [hco] at ihr
                show renderSegs (Seg.run [c, c2] :: Seg.pass p :: t) =
                  some (utf8pct (0x10000 + (c - 0xD800) * 0x400 + (c2 - 0xDC00)) ++
                    specSelectiveEncode rest2)
                rw [renderSegs_run_cons,
                  encodeURIstr_cons_pair c c2 [] hnu hhi hlo2, ihr]
                simp [encodeURIstr]
              | run b =>
                rw [hco] at ihr
                rw [renderSegs_run_cons] at ihr
                cases heb : encodeURIstr b with
                | none =>
                  rw [heb] at ihr
                  exact Option.noConfusion ihr
                | some eb =>
                  rw [heb] at ihr
                  cases hrt : renderSegs t with
                  | none =>
                    rw [hrt] at ihr
                    exact Option.noConfusion ihr
                  | some rt =>
                    rw [hrt] at ihr
                    simp only [Option.some.injEq] at ihr
                    show renderSegs (Seg.run (c :: c2 :: b) :: t) =
                      some (utf8pct (0x10000 + (c - 0xD800) * 0x400 +
                        (c2 - 0xDC00)) ++ specSelectiveEncode rest2)
                    rw [renderSegs_run_cons,
                      encodeURIstr_cons_pair c c2 b hnu hhi hlo2, heb, hrt]
                    simp only [Option.map_some', Option.some.injEq]
                    rw [← ihr]
                    simp
      · have hnh := (safe_not_surrogate c hs).1
        have hwt := surrogatesWellFormed_tail c rest hnh hwf
        have het := escapesAllValid_cons c rest hc hesc
        have hlen : rest.length ≤ n := by
          simp only [List.length_cons] at hl
          omega
        have ihr := ih rest hlen hwt het
        unfold encodeChars at ihr ⊢
        rw [tokenize_cons_safe c rest hc hs,
          show coalesce (Seg.pass c :: tokenize rest) =
            Seg.pass c :: coalesce (tokenize rest) from rfl,
          renderSegs_pass_cons, ihr,
          specSel_cons_safe c rest
            (by rw [contains_VALID_URL_CHARS]; exact hs)]
        rfl

/-- Claim C6 (amended): on any input whose repaired form has well-formed
surrogates and only complete valid escapes, encode from any reachable state
returns exactly the claim-side selective encoding: safe units and valid
triplets pass through in order and every other character, a correctly paired
surrogate pair counting as one character, becomes the uppercase percent
encoding of its UTF-8 bytes. (Without the valid-escape restriction the claim
fails: the one or two characters consumed together with an invalid percent
are re-encoded by encodeURI, which escapes the safe characters bracket,
backslash, caret and bar.) -/
theorem encodeUrl_selective_encoding (st : UrlCache) (url : List Nat)
    (hst : Reachable st)
    (hwf : surrogatesWellFormed (repairSurrogates url) = true)
    (hesc : escapesAllValid (repairSurrogates url) = true) :
    (encodeUrl url st).1 =
      some (specSelectiveEncode (repairSurrogates url)) := by
  rw [encodeUrl_fst st url (reachable_cacheInv st hst)]
  unfold encodeUrlPure
  split
  · next hf =>
    have hv := fastPath_all_safe url hf
    have hrid : repairSurrogates url = url :=
      repairSurrogates_id url (fun c hc => by
        have : encodeSafeChar c = true := by
          rw [← contains_VALID_URL_CHARS]
          exact hv c hc
        have := encodeSafeChar_le c this
        omega)
    rw [hrid, specSel_id url hv]
  · exact encodeChars_spec_aux (repairSurrogates url).length _ (Nat.le_refl _)
      hwf hesc

/-- Witness for C6 amended: the spec example with a space, where the space
becomes percent-2-0. -/
theorem encodeUrl_selective_encoding_witness :
    (encodeUrl
      [104, 116, 116, 112, 58, 47, 47, 108, 111, 99, 97, 108, 104, 111, 115,
       116, 47, 32, 102, 111, 111] initialCache).1 =
      some (specSelectiveEncode (repairSurrogates
        [104, 116, 116, 112, 58, 47, 47, 108, 111, 99, 97, 108, 104, 111,
         115, 116, 47, 32, 102, 111, 111])) ∧
    specSelectiveEncode (repairSurrogates
        [104, 116, 116, 112, 58, 47, 47, 108, 111, 99, 97, 108, 104, 111,
         115, 116, 47, 32, 102, 111, 111]) =
      [104, 116, 116, 112, 58, 47, 47, 108, 111, 99, 97, 108, 104, 111, 115,
       116, 47, 37, 50, 48, 102, 111, 111] :=
  ⟨encodeUrl_selective_encoding initialCache _ Reachable.init (by decide)
    (by decide), by decide⟩

/-- Claim C6, counterexample: the open bracket is in the safe set, yet in
percent-bracket it is consumed with the invalid escape and encoded by
encodeURI, so it does not pass through unchanged as the claim requires. -/
theorem safe_char_after_invalid_escape_encoded :
    (encodeUrl [0x25, 0x5B] initialCache).1 =
      some [0x25, 0x32, 0x35, 0x25, 0x35, 0x42] ∧
    encodeSafeChar 0x5B = true ∧
    (encodeUrl [0x25, 0x5B] initialCache).1 ≠
      some [0x25, 0x32, 0x35, 0x5B] :=
  ⟨by decide, by decide, by decide⟩

end EncodeUrl
